import Mathlib

/-!
# Verification of the sketch normalization / repair pipeline of animate-server

The repository's algorithmic core is a set of text transformations applied to
model-generated p5.js sketch code before it is stored or returned:

* `sanitizeSketchCode` (handler utilities, package main): markdown-fence
  extraction, a two-pass regex substitution intended to prefix bare `.method`
  calls, and wrapping of the result in a `new p5(function(p) { ... });`
  instance-mode closure;
* `SanitizeAnimationCode` (package internal, first revision): fence stripping
  with a regex that lacks the `(?s)` flag;
* `PreprocessP5Code` (package internal): a two-pass line-oriented rewriter
  (declaration scan, then canvas-binding simplification, parent-call
  neutralization, bracket repair and implicit-global promotion);
* `AnalyzeP5Code` (package internal): lifecycle-function detection and a
  validity report.

Strings are modelled as `List Char` (Go's `regexp` package operates on runes).
Every Go regular expression used by those functions is embedded as a dedicated
matcher that reproduces RE2's leftmost-first semantics for that particular
pattern; wherever a pattern admits no backtracking (because adjacent character
classes are disjoint) the matcher is written as a direct deterministic scan,
and the justification is recorded in a comment.  Recursions that jump over a
matched span take an explicit fuel argument (`length + 1` at the entry point)
so that all definitions compute by kernel reduction.
-/

/-- Strings as lists of runes, matching how Go's `regexp` walks a string. -/
abbrev Str := List Char

/-- The character class of Go's `unicode.IsSpace`, used by `strings.TrimSpace`:
the Unicode white-space property. -/
def goSpace (c : Char) : Bool :=
  List.elem c [' ', '\t', '\n', '\u000b', '\u000c', '\r', '\u0085', '\u00a0',
    '\u1680', '\u2000', '\u2001', '\u2002', '\u2003', '\u2004', '\u2005',
    '\u2006', '\u2007', '\u2008', '\u2009', '\u200a', '\u2028', '\u2029',
    '\u202f', '\u205f', '\u3000']

/-- The RE2 Perl class `\s`, which is `[\t\n\f\r ]` (ASCII only, no `\v`). -/
def reSpace (c : Char) : Bool :=
  List.elem c ['\t', '\n', '\u000c', '\r', ' ']

/-- The RE2 Perl class `\w`, which is `[0-9A-Za-z_]` (ASCII only). -/
def wordChar (c : Char) : Bool :=
  decide (('a' ≤ c ∧ c ≤ 'z') ∨ ('A' ≤ c ∧ c ≤ 'Z') ∨ ('0' ≤ c ∧ c ≤ '9') ∨ c = '_')

/-- First character class of the identifier pattern `[a-zA-Z_$]`. -/
def identStart (c : Char) : Bool :=
  decide (('a' ≤ c ∧ c ≤ 'z') ∨ ('A' ≤ c ∧ c ≤ 'Z') ∨ c = '_' ∨ c = '$')

/-- Continuation class of the identifier pattern `[a-zA-Z0-9_$]`. -/
def identChar (c : Char) : Bool :=
  identStart c || decide ('0' ≤ c ∧ c ≤ '9')

/-- Consume an exact literal from the front of a string, returning the rest. -/
def eatLit : Str → Str → Option Str
  | [], s => some s
  | _ :: _, [] => none
  | c :: l, d :: s => if c = d then eatLit l s else none

/-- `strings.HasPrefix`. -/
def hasPrefixL (pat s : Str) : Bool := (eatLit pat s).isSome

/-- Left half of `strings.TrimSpace`. -/
def trimLeft (s : Str) : Str := s.dropWhile goSpace

/-- Right half of `strings.TrimSpace`. -/
def trimRight (s : Str) : Str := (s.reverse.dropWhile goSpace).reverse

/-- `strings.TrimSpace`. -/
def trimSpace (s : Str) : Str := trimRight (trimLeft s)

/-- The three-backtick fence delimiter. -/
def fenceTicks : Str := "```".toList

/-- Split a string at the first occurrence of the three-backtick delimiter:
`splitTicks s = some (a, b)` with `s = a ++ fenceTicks ++ b`.  This is how the
non-greedy `([\s\S]*?)` followed by the closing delimiter behaves: the capture
is the shortest body, i.e. everything before the first closing delimiter. -/
def splitTicks : Str → Option (Str × Str)
  | [] => none
  | c :: r =>
    match eatLit fenceTicks (c :: r) with
    | some rest => some ([], rest)
    | none =>
      match splitTicks r with
      | some (a, b) => some (c :: a, b)
      | none => none

/-- One tag alternative of the fence pattern of `sanitizeSketchCode`,
`(?s)`+three backticks+`(?:js|javascript)?\n([\s\S]*?)`+three backticks:
given the text right after the opening delimiter, require `tag` followed by a
newline, then take the shortest body closed by another delimiter. -/
def fenceTagAt (tag t : Str) : Option Str :=
  match eatLit (tag ++ ['\n']) t with
  | some rest => (splitTicks rest).map Prod.fst
  | none => none

/-- All tag alternatives at one opening delimiter, in the pattern's
backtracking order: the optional group `(?:js|javascript)?` is greedy, so
`js` is tried first, then `javascript`, then the empty tag. -/
def fenceAt (t : Str) : Option Str :=
  match fenceTagAt ("js".toList) t with
  | some b => some b
  | none =>
    match fenceTagAt ("javascript".toList) t with
    | some b => some b
    | none => fenceTagAt [] t

/-- `FindStringSubmatch` for the fence pattern of `sanitizeSketchCode`:
leftmost match wins, so starting positions are tried left to right; a position
can only start a match where the three-backtick delimiter occurs. -/
def fenceFind : Str → Option Str
  | [] => none
  | c :: r =>
    match eatLit fenceTicks (c :: r) with
    | some rest =>
      match fenceAt rest with
      | some b => some b
      | none => fenceFind r
    | none => fenceFind r

/-- One pass of `dotRe.ReplaceAllString(code, "$1p.$2")` for
`dotRe = (\W)\.(\w+)`, with explicit fuel (each step consumes at least one
character, so `length + 1` fuel never starves; a starved call returns its
argument unchanged).

Faithfulness notes.  (1) In Go's replacement templates `$1p` names the capture
group `1p` — the name extends through every following word character — and a
reference to a group that does not exist expands to the empty string
(`regexp.Regexp.Expand`).  The template `$1p.$2` therefore produces
`"" + "." + group2`: the matched non-word character is deleted and no `p` is
inserted.  (2) The pattern needs no backtracking: `\w+` is greedy and is the
last element, so it always takes the maximal run, and `ReplaceAllString`
resumes scanning right after the match. -/
def dotPassGo : Nat → Str → Str
  | 0, s => s
  | _ + 1, [] => []
  | fuel + 1, c :: r =>
    if wordChar c then c :: dotPassGo fuel r
    else if r.head? = some '.' then
      let w := r.tail.takeWhile wordChar
      if w = [] then c :: dotPassGo fuel r
      else '.' :: (w ++ dotPassGo fuel (r.tail.dropWhile wordChar))
    else c :: dotPassGo fuel r

/-- One `ReplaceAllString` pass of the dot rule (see `dotPassGo`). -/
def dotPass (s : Str) : Str := dotPassGo (s.length + 1) s

/-- The prefix `strings.HasPrefix` tests before wrapping. -/
def newP5 : Str := "new p5".toList

/-- Opening text of the instance-mode wrapper. -/
def wrapHead : Str := "new p5(function(p) \x7b\n".toList

/-- Closing text of the instance-mode wrapper. -/
def wrapTail : Str := "\n\x7d);".toList

/-- The instance-mode closure `sanitizeSketchCode` puts around a body. -/
def wrapP5 (c : Str) : Str := wrapHead ++ c ++ wrapTail

/-- `sanitizeSketchCode` (package main handler utilities): fence extraction,
`strings.TrimSpace`, two passes of the dot rule, then closure wrapping unless
the (re-trimmed) code already starts with `new p5`. -/
def sanitizeSketchCode (raw : Str) : Str :=
  let code0 := match fenceFind raw with | some b => b | none => raw
  let code1 := trimSpace code0
  let code2 := dotPass (dotPass code1)
  if hasPrefixL newP5 (trimSpace code2) then code2 else wrapP5 code2

/-- Body search for the fence pattern of the first package-internal
`SanitizeAnimationCode` revision, whose regex lacks `(?s)`: the lazy `(.*?)`
cannot cross a newline.  Given the text after the (optional) leading `\n?`,
find the shortest body of non-newline characters that is closed by
`\n?` + three backticks.  The trailing `\n?` lies outside the capture, so
whether it is taken does not change the result and both options are checked
together. -/
def v1BodyGo : Str → Option Str
  | [] => none
  | c :: r =>
    if hasPrefixL ('\n' :: fenceTicks) (c :: r) || hasPrefixL fenceTicks (c :: r) then
      some []
    else if c = '\n' then none
    else (v1BodyGo r).map (fun b => c :: b)

/-- One tag alternative of the `SanitizeAnimationCode` fence pattern: after
the tag, the greedy `\n?` prefers to consume a newline; if no body closes from
there, the engine retries without consuming it. -/
def v1TagAt (tag t : Str) : Option Str :=
  match eatLit tag t with
  | none => none
  | some u =>
    match u with
    | '\n' :: u1 =>
      match v1BodyGo u1 with
      | some b => some b
      | none => v1BodyGo u
    | _ => v1BodyGo u

/-- `FindStringSubmatch` for the `SanitizeAnimationCode` pattern
(three backticks + `(?:javascript|js)?\n?(.*?)\n?` + three backticks, no
`(?s)` flag).  Tag alternatives in source order: `javascript`, `js`, none. -/
def v1FenceFind : Str → Option Str
  | [] => none
  | c :: r =>
    match eatLit fenceTicks (c :: r) with
    | some rest =>
      match v1TagAt ("javascript".toList) rest with
      | some b => some b
      | none =>
        match v1TagAt ("js".toList) rest with
        | some b => some b
        | none =>
          match v1TagAt [] rest with
          | some b => some b
          | none => v1FenceFind r
    | none => v1FenceFind r

/-- `SanitizeAnimationCode` as in the first package-internal revision
(src/unnamed/part_002 lines 233-244): take the fence body when the pattern
matches, then `strings.TrimSpace`. -/
def sanitizeAnimationCode (raw : Str) : Str :=
  trimSpace (match v1FenceFind raw with | some b => b | none => raw)

/-! ## `PreprocessP5Code` (src/unnamed/part_002 lines 493-574) -/

/-- The declaration table `declaredVars : map[string]bool`, modelled as the
list of identifiers marked bound (only membership is ever consulted). -/
abbrev VarTable := List Str

/-- `declaredVars[v] = true`. -/
def tInsert (v : Str) (t : VarTable) : VarTable := if v ∈ t then t else v :: t

/-- `strings.Split(code, "\n")`: always at least one (possibly empty) part. -/
def splitOnNl : Str → List Str
  | [] => [[]]
  | c :: r =>
    match splitOnNl r with
    | [] => [[]]
    | a :: as => if c = '\n' then [] :: a :: as else (c :: a) :: as

/-- `strings.Join(lines, "\n")`. -/
def joinNl (ls : List Str) : Str := List.intercalate ['\n'] ls

/-- Character class test `c ≠ d` as a Bool, for `[^d]` classes. -/
def neChar (d c : Char) : Bool := decide (c ≠ d)

/-- The alternation `(?:let|var|const)`.  The alternatives start with three
distinct characters, so trying them in source order is exact. -/
def declKwAt (s : Str) : Option Str :=
  match eatLit ("let".toList) s with
  | some r => some r
  | none =>
    match eatLit ("var".toList) s with
    | some r => some r
    | none => eatLit ("const".toList) s

/-- A match of `(?:let|var|const)\s+([a-zA-Z_$][a-zA-Z0-9_$]*)` at the head of
`s`: returns the captured identifier and the text after the match.  No
backtracking arises: `\s+` must take the maximal whitespace run because a
shorter run would put a whitespace character where `[a-zA-Z_$]` is required,
and the trailing `[a-zA-Z0-9_$]*` is greedy and last. -/
def declIdentAt (s : Str) : Option (Str × Str) :=
  match declKwAt s with
  | none => none
  | some s1 =>
    if s1.takeWhile reSpace = [] then none
    else
      let s2 := s1.dropWhile reSpace
      match s2 with
      | [] => none
      | c :: _ =>
        if identStart c then some (s2.takeWhile identChar, s2.dropWhile identChar)
        else none

/-- `letRegex.FindAllStringSubmatch(line, -1)`: all matches left to right,
resuming after each match (fuel: each step consumes at least one character). -/
def letAllGo : Nat → Str → List Str
  | 0, _ => []
  | _ + 1, [] => []
  | fuel + 1, c :: r =>
    match declIdentAt (c :: r) with
    | some (ident, rest) => ident :: letAllGo fuel rest
    | none => letAllGo fuel r

/-- A match of `function\s+([a-zA-Z_$][a-zA-Z0-9_$]*)` at the head of `s`
(same determinism argument as `declIdentAt`). -/
def funcIdentAt (s : Str) : Option Str :=
  match eatLit ("function".toList) s with
  | none => none
  | some s1 =>
    if s1.takeWhile reSpace = [] then none
    else
      match s1.dropWhile reSpace with
      | [] => none
      | c :: cs => if identStart c then some ((c :: cs).takeWhile identChar) else none

/-- `funcRegex.FindStringSubmatch(line)`: the leftmost match only. -/
def funcFirst : Str → Option Str
  | [] => none
  | c :: r =>
    match funcIdentAt (c :: r) with
    | some ident => some ident
    | none => funcFirst r

/-- A match of `(?:let|var|const)\s+([a-zA-Z_$][a-zA-Z0-9_$]*)\s*=\s*\[` at
the head of `s`.  Deterministic: each `\s*` is followed by a literal that is
not whitespace. -/
def arrayIdentAt (s : Str) : Option Str :=
  match declIdentAt s with
  | none => none
  | some (ident, rest) =>
    match rest.dropWhile reSpace with
    | '=' :: r2 =>
      match r2.dropWhile reSpace with
      | '[' :: _ => some ident
      | _ => none
    | _ => none

/-- `arrayRegex.FindStringSubmatch(line)`: the leftmost match only. -/
def arrayFirst : Str → Option Str
  | [] => none
  | c :: r =>
    match arrayIdentAt (c :: r) with
    | some i => some i
    | none => arrayFirst r

/-- The first pass of `PreprocessP5Code` on one line: record identifiers from
declaration-keyword bindings (all matches), the first named-function
definition, and the first array-literal declaration. -/
def scanLineTable (t : VarTable) (line : Str) : VarTable :=
  let t1 := (letAllGo (line.length + 1) line).foldl (fun acc v => tInsert v acc) t
  let t2 := match funcFirst line with | some v => tInsert v t1 | none => t1
  match arrayFirst line with | some v => tInsert v t2 | none => t2

/-- A match of the canvas pattern
`(\s*)(?:let|var|const)\s+canvas\s*=\s*createCanvas\(([^)]*)\);` starting at
the head of `s`: returns the captured indentation and argument text.
Deterministic: `(\s*)` and every `\s*`/`\s+` run is followed by a character
outside `\s`, and `[^)]*` is followed by `\)`, which it cannot contain, so
every greedy run is forced to its maximal extent. -/
def canvasArgsTail (s1 : Str) : Option Str :=
  match declKwAt s1 with
  | none => none
  | some s2 =>
    if s2.takeWhile reSpace = [] then none
    else
      match eatLit ("canvas".toList) (s2.dropWhile reSpace) with
      | none => none
      | some s3 =>
        match s3.dropWhile reSpace with
        | '=' :: s4 =>
          match eatLit ("createCanvas(".toList) (s4.dropWhile reSpace) with
          | none => none
          | some s5 =>
            match eatLit (");".toList) (s5.dropWhile (neChar ')')) with
            | some _ => some (s5.takeWhile (neChar ')'))
            | none => none
        | _ => none

def canvasMatchAt (s : Str) : Option (Str × Str) :=
  (canvasArgsTail (s.dropWhile reSpace)).map (fun args => (s.takeWhile reSpace, args))

/-- `canvasRegex.FindStringSubmatch(line)`: leftmost match. -/
def canvasFind : Str → Option (Str × Str)
  | [] => none
  | c :: r =>
    match canvasMatchAt (c :: r) with
    | some p => some p
    | none => canvasFind r

/-- The part of the parent pattern after the greedy `.*`:
`\.parent\([^)]*\);?\s*`.  When it matches at the head of `s`, return the text
after the whole tail (past the first `)`, an optional `;`, and trailing
whitespace). -/
def parentAfter (s : Str) : Option Str :=
  match eatLit (".parent(".toList) s with
  | none => none
  | some s1 =>
    match s1.dropWhile (neChar ')') with
    | ')' :: s2 =>
      let s3 := match s2 with | ';' :: s2' => s2' | _ => s2
      some (s3.dropWhile reSpace)
    | _ => none

/-- The suffix chosen by the greedy `.*` of the parent pattern: the rightmost
position where `\.parent\([^)]*\);?\s*` matches. -/
def lastParentSuffix : Str → Option Str
  | [] => none
  | c :: r =>
    match lastParentSuffix r with
    | some a => some a
    | none => parentAfter (c :: r)

/-- Replacement text of the parent rule (with its trailing newline). -/
def parentComment : Str := "// Canvas parent handled by instance mode\n".toList

/-- `parentRegex.ReplaceAllString(line, "${1}// Canvas parent handled by instance mode\n")`
for `parentRegex = (\s*).*\.parent\([^)]*\);?\s*`, returning `none` when
`MatchString` is false.  A line produced by `strings.Split(code, "\n")`
contains no newline, so whenever some viable `.parent(`+`)` occurrence exists
the match starts at position 0 (the unanchored `(\s*).*` reaches any
occurrence), `(\s*)` captures the maximal leading whitespace run, and the
greedy `.*` selects the rightmost viable occurrence.  After that occurrence's
tail no further viable occurrence can remain (it would have been the more
rightward choice), so `ReplaceAllString` performs exactly one replacement. -/
def parentFix (line : Str) : Option Str :=
  match lastParentSuffix line with
  | none => none
  | some suffix => some (line.takeWhile reSpace ++ parentComment ++ suffix)

/-- The assignment-operator alternation `(\+|-|\*|\/|)=` of the bracket
pattern: a compound operator character must be followed by `=`; otherwise the
empty alternative requires `=` itself. -/
def opEq : Str → Option (Str × Str)
  | [] => none
  | c :: r =>
    if List.elem c ['+', '-', '*', '/'] then
      match r with
      | '=' :: r2 => some ([c], r2)
      | _ => none
    else if c = '=' then some ([], r)
    else none

/-- Split at the first `;`: `firstSemiSplit s = some (a, b)` with
`s = a ++ ';' :: b` and no `;` in `a`. -/
def firstSemiSplit : Str → Option (Str × Str)
  | [] => none
  | c :: r =>
    if c = ';' then some ([], r)
    else (firstSemiSplit r).map (fun p => (c :: p.1, p.2))

/-- A match of the bracket-repair pattern
`(\w+)\[(\w+)\.(\w+)\s*(\+|-|\*|\/|)=\s*([^;]+);` at the head of `s`:
returns the expanded replacement `$1[$2].$3 $4= $5;` and the rest of the
string after the match.  Each `\w+` is greedy and followed by a non-word
literal, so it takes its maximal run.  For the tail `\s*([^;]+);`, whitespace
is inside `[^;]`, so the two overlap: with `p` the position of the first `;`
and `m` the whitespace-run length (`m ≤ p` always), the greedy choice takes
the body from `m` when `p > m`, and otherwise backs the whitespace run off by
one character so that the body is nonempty. -/
def bracketMatchAt (s : Str) : Option (Str × Str) :=
  let g1 := s.takeWhile wordChar
  if g1 = [] then none else
  match s.dropWhile wordChar with
  | '[' :: s2 =>
    let g2 := s2.takeWhile wordChar
    if g2 = [] then none else
    (match s2.dropWhile wordChar with
     | '.' :: s3 =>
       let g3 := s3.takeWhile wordChar
       if g3 = [] then none else
       (match opEq ((s3.dropWhile wordChar).dropWhile reSpace) with
        | none => none
        | some (op, s5) =>
          match firstSemiSplit s5 with
          | none => none
          | some (before, after) =>
            let m := (s5.takeWhile reSpace).length
            let p := before.length
            let emit := fun (g5 : Str) =>
              g1 ++ '[' :: g2 ++ "].".toList ++ g3 ++ ' ' :: op ++ "= ".toList ++ g5 ++ [';']
            if m < p then some (emit (before.drop m), after)
            else if 1 ≤ m then some (emit (before.drop (m - 1)), after)
            else none)
     | _ => none)
  | _ => none

/-- `bracketRegex.ReplaceAllString(processedLine, "$1[$2].$3 $4= $5;")`:
left-to-right scan, resuming after each replacement. -/
def bracketGo : Nat → Str → Str
  | 0, s => s
  | _ + 1, [] => []
  | fuel + 1, c :: r =>
    match bracketMatchAt (c :: r) with
    | some (emit, rest) => emit ++ bracketGo fuel rest
    | none => c :: bracketGo fuel r

/-- The bracket-repair rule as applied to a whole line. -/
def bracketFix (s : Str) : Str := bracketGo (s.length + 1) s

/-- The anchored assignment test
`^\s*([a-zA-Z_$][a-zA-Z0-9_$]*)\s*=\s*[^=]` (`FindStringSubmatch` on the
original line): returns the captured identifier.  Deterministic: `^\s*` must
take the maximal run (an identifier cannot start with whitespace), the
identifier and the next `\s*` likewise; the tail `\s*[^=]` succeeds exactly
when a character follows the `=` and the first such character is not `=`
(taking zero further whitespace, `[^=]` accepts any non-`=` character,
whitespace included; if the first character is `=` no whitespace is available
to skip). -/
def assignMatch (line : Str) : Option Str :=
  let s1 := line.dropWhile reSpace
  match s1 with
  | [] => none
  | c :: _ =>
    if identStart c then
      let ident := s1.takeWhile identChar
      match (s1.dropWhile identChar).dropWhile reSpace with
      | '=' :: rest =>
        match rest with
        | [] => none
        | d :: _ => if d = '=' then none else some ident
      | _ => none
    else none

/-- `whitespaceRegex.ReplaceAllString(processedLine, "${1}let $2")` for
`whitespaceRegex = ^(\s*)([a-zA-Z_$][a-zA-Z0-9_$]*\s*=)`: anchored, so at
most one replacement; the second capture keeps the whitespace between the
identifier and `=`. -/
def promoteFix (s : Str) : Str :=
  let w := s.takeWhile reSpace
  let s1 := s.dropWhile reSpace
  match s1 with
  | [] => s
  | c :: _ =>
    if identStart c then
      let ident := s1.takeWhile identChar
      let s2 := s1.dropWhile identChar
      let w2 := s2.takeWhile reSpace
      match s2.dropWhile reSpace with
      | '=' :: rest => w ++ "let ".toList ++ ident ++ w2 ++ '=' :: rest
      | _ => s
    else s

/-- `strings.Contains(s, pat)`. -/
def containsSubstr (pat : Str) : Str → Bool
  | [] => hasPrefixL pat []
  | c :: r => hasPrefixL pat (c :: r) || containsSubstr pat r

/-- `strings.Split(line, "//")[0]`: the text before the first `//`. -/
def codeBefore : Str → Str
  | [] => []
  | c :: r => if hasPrefixL ("//".toList) (c :: r) then [] else c :: codeBefore r

/-- The fixed lifecycle/handler names (`p5Functions` in the promotion branch
and the alternation of `AnalyzeP5Code`'s function pattern, in source order). -/
def p5Functions : List Str :=
  ["setup".toList, "draw".toList, "mousePressed".toList, "mouseReleased".toList,
   "keyPressed".toList, "keyReleased".toList, "windowResized".toList]

/-- The second pass of `PreprocessP5Code` on one line: canvas-binding
simplification, parent-call neutralization (which replaces the whole processed
line, built from the original line), bracket repair, then implicit-global
promotion guarded by the comment-free code part, the declaration table and the
lifecycle names. -/
def rewriteLine (t : VarTable) (line : Str) : Str × VarTable :=
  let pl1 := match canvasFind line with
    | some (w, args) => w ++ "createCanvas(".toList ++ args ++ ");".toList
    | none => line
  let pl2 := match parentFix line with
    | some res => res
    | none => pl1
  let pl3 := bracketFix pl2
  match assignMatch line with
  | none => (pl3, t)
  | some v =>
    let cp := codeBefore line
    if !containsSubstr ("function".toList) cp &&
        !containsSubstr ("let ".toList) cp &&
        !containsSubstr ("var ".toList) cp &&
        !containsSubstr ("const ".toList) cp &&
        !containsSubstr ("for ".toList) cp &&
        !containsSubstr ("if ".toList) cp &&
        !(decide (v ∈ t)) && !(decide (v ∈ p5Functions)) then
      (promoteFix pl3, tInsert v t)
    else (pl3, t)

/-- `PreprocessP5Code`: split into lines, build the declaration table in a
first pass, rewrite each line in a second pass threading the table, rejoin. -/
def preprocessP5Code (code : Str) : Str :=
  let lines := splitOnNl code
  let t0 := lines.foldl scanLineTable []
  let out := lines.foldl
    (fun (acc : List Str × VarTable) line =>
      let r := rewriteLine acc.2 line
      (acc.1 ++ [r.1], r.2))
    (([] : List Str), t0)
  joinNl out.1

/-! ## `AnalyzeP5Code` (src/unnamed/part_002 lines 577-621) -/

/-- Try the name alternatives of
`function\s+(setup|draw|mousePressed|mouseReleased|keyPressed|keyReleased|windowResized)\s*\(`
in source order.  No listed name is a prefix of another, so at most one
alternative can match at a given position and committing to the first
prefix hit is exact. -/
def tryNames : List Str → Str → Option (Str × Str)
  | [], _ => none
  | n :: ns, s =>
    match eatLit n s with
    | some r => some (n, r)
    | none => tryNames ns s

/-- A match of the lifecycle-function pattern at the head of `s`: returns the
captured name and the rest after the `(`.  `\s+` and `\s*` are each followed
by a non-whitespace requirement, so the maximal runs are forced. -/
def p5FuncAt (s : Str) : Option (Str × Str) :=
  match eatLit ("function".toList) s with
  | none => none
  | some s1 =>
    if s1.takeWhile reSpace = [] then none
    else
      match tryNames p5Functions (s1.dropWhile reSpace) with
      | none => none
      | some (name, s3) =>
        match s3.dropWhile reSpace with
        | '(' :: s4 => some (name, s4)
        | _ => none

/-- `functionRegex.FindAllStringSubmatch(code, -1)`: all matches left to
right, resuming after each match. -/
def findFuncsGo : Nat → Str → List Str
  | 0, _ => []
  | _ + 1, [] => []
  | fuel + 1, c :: r =>
    match p5FuncAt (c :: r) with
    | some (name, rest) => name :: findFuncsGo fuel rest
    | none => findFuncsGo fuel r

/-- The names detected by `AnalyzeP5Code`'s function scan, in match order. -/
def findFuncs (code : Str) : List Str := findFuncsGo (code.length + 1) code

/-- Character class `[^,)]`. -/
def notCommaPar (c : Char) : Bool := decide (c ≠ ',' ∧ c ≠ ')')

/-- Descending backtracking helper: try `f k`, `f (k-1)`, ..., `f 0`, first
success wins.  This is the order in which a greedy single-character-class
repetition hands positions to the rest of the pattern. -/
def backoffDesc (f : Nat → Option α) : Nat → Option α
  | 0 => f 0
  | k + 1 =>
    match f (k + 1) with
    | some r => some r
    | none => backoffDesc f k

/-- The optional second-argument group `(?:\s*,\s*([^)]+))?` of the canvas
pattern together with the closing `\s*\)`: `\s*` before `,` is deterministic
(`,` is not whitespace); the `\s*` after `,` overlaps `[^)]+` (whitespace is
in that class), so both repetitions backtrack greedily. -/
def canvasOpt (u : Str) : Option Str :=
  match u.dropWhile reSpace with
  | ',' :: u2 =>
    backoffDesc
      (fun k2 =>
        let t2 := u2.drop k2
        backoffDesc
          (fun r2 =>
            if r2 = 0 then none
            else
              match (t2.drop r2).dropWhile reSpace with
              | ')' :: _ => some (t2.take r2)
              | _ => none)
          (t2.takeWhile (neChar ')')).length)
      (u2.takeWhile reSpace).length
  | _ => none

/-- The argument part `\s*([^,)]+)(?:\s*,\s*([^)]+))?\s*\)` of the canvas
pattern, applied to the text after `(`.  The leading `\s*` overlaps `[^,)]+`,
so the whitespace skip and the first-argument body both backtrack greedily;
the optional group is tried before its absence. -/
def canvasArgsAfterParen (s2 : Str) : Option (Str × Option Str) :=
  backoffDesc
    (fun k =>
      let t := s2.drop k
      backoffDesc
        (fun r =>
          if r = 0 then none
          else
            let g1 := t.take r
            let u := t.drop r
            match canvasOpt u with
            | some g2 => some (g1, some g2)
            | none =>
              match u.dropWhile reSpace with
              | ')' :: _ => some (g1, none)
              | _ => none)
        (t.takeWhile notCommaPar).length)
    (s2.takeWhile reSpace).length

/-- A match of
`createCanvas\s*\(\s*([^,)]+)(?:\s*,\s*([^)]+))?\s*\)` at the head of `s`:
the captured first and (optional) second argument texts. -/
def analyzeCanvasAt (s : Str) : Option (Str × Option Str) :=
  match eatLit ("createCanvas".toList) s with
  | none => none
  | some s1 =>
    match s1.dropWhile reSpace with
    | '(' :: s2 => canvasArgsAfterParen s2
    | _ => none

/-- `canvasRegex.FindStringSubmatch(code)`: leftmost match. -/
def analyzeCanvasFind : Str → Option (Str × Option Str)
  | [] => none
  | c :: r =>
    match analyzeCanvasAt (c :: r) with
    | some p => some p
    | none => analyzeCanvasFind r

/-- The metadata map built by `AnalyzeP5Code`, as a record. -/
structure AnalysisReport where
  functions : List Str
  hasSetup : Bool
  hasDraw : Bool
  hasInteraction : Bool
  hasCanvas : Bool
  canvasWidth : Option Str
  canvasHeight : Option Str
  errors : List Str
  isValid : Bool
  deriving Repr, DecidableEq

/-- The error string appended when no setup function is found. -/
def missingSetupMsg : Str := "Missing setup() function".toList

/-- The error string appended when no draw function is found. -/
def missingDrawMsg : Str := "Missing draw() function".toList

/-- `AnalyzeP5Code`: detect lifecycle functions, the canvas call and its
arguments, build the validation errors in source order (setup first), and set
`isValid` to `len(errors) == 0`. -/
def analyzeP5Code (code : Str) : AnalysisReport :=
  let found := findFuncs code
  let hasSetup := decide ("setup".toList ∈ found)
  let hasDraw := decide ("draw".toList ∈ found)
  let hasMP := decide ("mousePressed".toList ∈ found)
  let hasMR := decide ("mouseReleased".toList ∈ found)
  let hasKP := decide ("keyPressed".toList ∈ found)
  let hasKR := decide ("keyReleased".toList ∈ found)
  let canvas := analyzeCanvasFind code
  let errors :=
    (if !hasSetup then [missingSetupMsg] else []) ++
    (if !hasDraw then [missingDrawMsg] else [])
  { functions := found
    hasSetup := hasSetup
    hasDraw := hasDraw
    hasInteraction := hasMP || hasMR || hasKP || hasKR
    hasCanvas := canvas.isSome
    canvasWidth := canvas.map (fun p => trimSpace p.1)
    canvasHeight := match canvas with
      | some (_, some g2) => some (trimSpace g2)
      | _ => none
    errors := errors
    isValid := errors.isEmpty }

/-- Model of an invocation of `PreprocessP5Code` made in a context where a
declaration table from an earlier invocation might exist: the function's first
statement `declaredVars := make(map[string]bool)` creates a fresh empty table,
so the ambient one is never consulted.  Returns the rewritten code and the
table as it stands when the invocation ends. -/
def preprocessP5CodeSt (_ambient : VarTable) (code : Str) : Str × VarTable :=
  let lines := splitOnNl code
  let t0 := lines.foldl scanLineTable ([] : VarTable)
  let out := lines.foldl
    (fun (acc : List Str × VarTable) line =>
      let r := rewriteLine acc.2 line
      (acc.1 ++ [r.1], r.2))
    (([] : List Str), t0)
  (joinNl out.1, out.2)

/-- Number of positions at which `pat` occurs as a contiguous substring. -/
def countOcc (pat : Str) : Str → Nat
  | [] => if hasPrefixL pat [] then 1 else 0
  | c :: r => (if hasPrefixL pat (c :: r) then 1 else 0) + countOcc pat r

/-- Whether the bracket-repair pattern matches anywhere in the line. -/
def bracketHit : Str → Bool
  | [] => false
  | c :: r => (bracketMatchAt (c :: r)).isSome || bracketHit r

/-- The first test case of `TestSanitizeAnimationCode`
(src/internal/helpers_test.go): a multi-line fenced block. -/
def fencedSetupInput : Str :=
  "```javascript\nfunction setup() \x7b\n  createCanvas(400, 400);\n\x7d\n```".toList

/-- The output that test expects: the fence body, trimmed. -/
def fencedSetupExpected : Str :=
  "function setup() \x7b\n  createCanvas(400, 400);\n\x7d".toList

/-! ## Basic lemmas about the string helpers -/

theorem eatLit_append (l r : Str) : eatLit l (l ++ r) = some r := by
  induction l with
  | nil => rfl
  | cons c l ih => simp [eatLit, ih]

theorem eatLit_eq_some : ∀ {l s r : Str}, eatLit l s = some r → s = l ++ r
  | [], s, r, h => by simpa [eatLit] using h
  | c :: l, s, r, h => by
    cases s with
    | nil => simp [eatLit] at h
    | cons d t =>
      by_cases hd : c = d
      · subst hd
        simp only [eatLit, if_pos rfl] at h
        simpa using eatLit_eq_some h
      · simp [eatLit, hd] at h

theorem hasPrefixL_append (l r : Str) : hasPrefixL l (l ++ r) = true := by
  simp [hasPrefixL, eatLit_append]

theorem hasPrefixL_ex {pat s : Str} (h : hasPrefixL pat s = true) : ∃ r, s = pat ++ r := by
  unfold hasPrefixL at h
  cases he : eatLit pat s with
  | none => rw [he] at h; simp at h
  | some r => exact ⟨r, eatLit_eq_some he⟩

theorem takeWhile_all {p : Char → Bool} : ∀ {a : Str}, (∀ c ∈ a, p c = true) → a.takeWhile p = a
  | [], _ => rfl
  | c :: r, h => by
    have hc : p c = true := h c (List.mem_cons_self c r)
    have ih := takeWhile_all (p := p) (a := r) fun x hx => h x (List.mem_cons_of_mem c hx)
    simp [List.takeWhile_cons, hc, ih]

theorem dropWhile_all {p : Char → Bool} : ∀ {a : Str}, (∀ c ∈ a, p c = true) → a.dropWhile p = []
  | [], _ => rfl
  | c :: r, h => by
    have hc : p c = true := h c (List.mem_cons_self c r)
    have ih := dropWhile_all (p := p) (a := r) fun x hx => h x (List.mem_cons_of_mem c hx)
    simp [List.dropWhile_cons, hc, ih]

theorem takeWhile_append_stop {p : Char → Bool} {u : Str} {b : Char} (hb : p b = false) :
    ∀ {a : Str}, (∀ c ∈ a, p c = true) → (a ++ b :: u).takeWhile p = a
  | [], _ => by simp [List.takeWhile_cons, hb]
  | c :: r, h => by
    have hc : p c = true := h c (List.mem_cons_self c r)
    have ih := takeWhile_append_stop (p := p) (u := u) (b := b) hb (a := r)
      fun x hx => h x (List.mem_cons_of_mem c hx)
    simp [List.takeWhile_cons, hc, ih]

theorem dropWhile_append_stop {p : Char → Bool} {u : Str} {b : Char} (hb : p b = false) :
    ∀ {a : Str}, (∀ c ∈ a, p c = true) → (a ++ b :: u).dropWhile p = b :: u
  | [], _ => by simp [List.dropWhile_cons, hb]
  | c :: r, h => by
    have hc : p c = true := h c (List.mem_cons_self c r)
    have ih := dropWhile_append_stop (p := p) (u := u) (b := b) hb (a := r)
      fun x hx => h x (List.mem_cons_of_mem c hx)
    simp [List.dropWhile_cons, hc, ih]

theorem dropWhile_head_false {p : Char → Bool} :
    ∀ {s : Str} {c : Char} {r : Str}, s.dropWhile p = c :: r → p c = false
  | [], c, r, h => by simp [List.dropWhile] at h
  | d :: t, c, r, h => by
    by_cases hd : p d
    · rw [List.dropWhile_cons, if_pos hd] at h
      exact dropWhile_head_false h
    · rw [List.dropWhile_cons, if_neg hd] at h
      cases h
      simpa using hd

/-! ## Lemmas about the dot-substitution pass -/

theorem length_takeWhile_add_dropWhile (p : Char → Bool) (l : Str) :
    (l.takeWhile p).length + (l.dropWhile p).length = l.length := by
  rw [← List.length_append, List.takeWhile_append_dropWhile]

theorem dotPassGo_length : ∀ (f : Nat) (s : Str), (dotPassGo f s).length ≤ s.length
  | 0, _ => Nat.le_refl _
  | _ + 1, [] => Nat.le_refl _
  | f + 1, c :: r => by
    rw [dotPassGo]
    by_cases hw : wordChar c
    · rw [if_pos hw]
      simpa using dotPassGo_length f r
    · rw [if_neg hw]
      by_cases hh : r.head? = some '.'
      · rw [if_pos hh]
        by_cases hnil : r.tail.takeWhile wordChar = []
        · simpa [hnil] using dotPassGo_length f r
        · have h1 := dotPassGo_length f (r.tail.dropWhile wordChar)
          have h2 := length_takeWhile_add_dropWhile wordChar r.tail
          have h3 : r.tail.length + 1 = r.length := by
            cases r with
            | nil => simp at hh
            | cons d r2 => simp
          simp only [hnil, ite_false, List.length_cons, List.length_append]
          omega
      · rw [if_neg hh]
        simpa using dotPassGo_length f r

theorem dotPassGo_cons_shape (f : Nat) (c : Char) (r : Str) :
    (∃ t, dotPassGo f (c :: r) = c :: t) ∨ (∃ t, dotPassGo f (c :: r) = '.' :: t) := by
  cases f with
  | zero => exact Or.inl ⟨r, rfl⟩
  | succ f =>
    rw [dotPassGo]
    by_cases hw : wordChar c
    · exact Or.inl ⟨_, by rw [if_pos hw]⟩
    · rw [if_neg hw]
      by_cases hh : r.head? = some '.'
      · rw [if_pos hh]
        by_cases hnil : r.tail.takeWhile wordChar = []
        · exact Or.inl ⟨_, by rw [if_pos hnil]⟩
        · exact Or.inr ⟨r.tail.takeWhile wordChar ++ dotPassGo f (r.tail.dropWhile wordChar),
            by rw [if_neg hnil]⟩
      · exact Or.inl ⟨_, by rw [if_neg hh]⟩

theorem dotPassGo_newP5 (f : Nat) (y : Str) :
    dotPassGo (f + 6) (newP5 ++ y) = newP5 ++ dotPassGo f y := by
  show dotPassGo (f + 6) ('n' :: 'e' :: 'w' :: ' ' :: 'p' :: '5' :: y)
      = 'n' :: 'e' :: 'w' :: ' ' :: 'p' :: '5' :: dotPassGo f y
  rw [show f + 6 = (f + 5) + 1 by omega, dotPassGo, if_pos (by decide : wordChar 'n' = true)]
  rw [show f + 5 = (f + 4) + 1 by omega, dotPassGo, if_pos (by decide : wordChar 'e' = true)]
  rw [show f + 4 = (f + 3) + 1 by omega, dotPassGo, if_pos (by decide : wordChar 'w' = true)]
  rw [show f + 3 = (f + 2) + 1 by omega, dotPassGo,
    if_neg (by decide : ¬wordChar ' ' = true),
    if_neg (by simp : ¬(('p' :: '5' :: y).head? = some '.'))]
  rw [show f + 2 = (f + 1) + 1 by omega, dotPassGo, if_pos (by decide : wordChar 'p' = true)]
  rw [show f + 1 = f + 1 from rfl, dotPassGo]
  cases f with
  | zero => rw [if_pos (by decide : wordChar '5' = true)]
  | succ g => rw [if_pos (by decide : wordChar '5' = true)]

theorem dotPass_newP5 (y : Str) : dotPass (newP5 ++ y) = newP5 ++ dotPass y := by
  unfold dotPass
  have h : (newP5 ++ y).length + 1 = (y.length + 1) + 6 := by
    simp [newP5]
    try omega
  rw [h, dotPassGo_newP5]

theorem dotPass_length (s : Str) : (dotPass s).length ≤ s.length :=
  dotPassGo_length _ s

/-! ## Lemmas about `strings.TrimSpace` -/

theorem trimRight_ex (s : Str) :
    ∃ u, s = trimRight s ++ u ∧ ∀ c ∈ u, goSpace c = true := by
  refine ⟨(s.reverse.takeWhile goSpace).reverse, ?_, ?_⟩
  · conv_lhs => rw [← List.reverse_reverse s,
      ← List.takeWhile_append_dropWhile (p := goSpace) (l := s.reverse)]
    rw [List.reverse_append]
    rfl
  · intro c hc
    rw [List.mem_reverse] at hc
    exact List.mem_takeWhile_imp hc

theorem dropWhile_append_if (p : Char → Bool) (x y : Str) :
    (x ++ y).dropWhile p =
      if (x.dropWhile p).isEmpty then y.dropWhile p else x.dropWhile p ++ y := by
  induction x with
  | nil => simp
  | cons c r ih =>
    by_cases hc : p c
    · simpa [List.dropWhile_cons, hc] using ih
    · simp [List.dropWhile_cons, hc]

theorem trimRight_append_pre {a : Str} (t : Str) (ha : a ≠ [])
    (hl : goSpace (a.getLast ha) = false) : trimRight (a ++ t) = a ++ trimRight t := by
  have hrev : a.reverse = a.getLast ha :: a.dropLast.reverse := by
    conv_lhs => rw [← List.dropLast_append_getLast ha]
    simp
  have hdwa : a.reverse.dropWhile goSpace = a.reverse := by
    rw [hrev, List.dropWhile_cons, if_neg (by simp [hl])]
  unfold trimRight
  rw [List.reverse_append, dropWhile_append_if]
  by_cases he : (t.reverse.dropWhile goSpace).isEmpty
  · rw [if_pos he, hdwa]
    have : t.reverse.dropWhile goSpace = [] := by
      cases h : t.reverse.dropWhile goSpace with
      | nil => rfl
      | cons x xs => rw [h] at he; simp at he
    rw [this]
    simp
  · rw [if_neg he, List.reverse_append]
    simp

theorem trimSpace_newP5 (t : Str) : trimSpace (newP5 ++ t) = newP5 ++ trimRight t := by
  unfold trimSpace trimLeft
  have h1 : (newP5 ++ t).dropWhile goSpace = newP5 ++ t := by
    rw [show newP5 ++ t = 'n' :: (['e', 'w', ' ', 'p', '5'] ++ t) from rfl]
    rw [List.dropWhile_cons, if_neg (by decide)]
  rw [h1]
  exact trimRight_append_pre t (by simp [newP5]) (by decide)

theorem trimSpace_head_false {s : Str} {c : Char} {r : Str}
    (h : trimSpace s = c :: r) : goSpace c = false := by
  unfold trimSpace at h
  obtain ⟨u, hu, _⟩ := trimRight_ex (trimLeft s)
  rw [h] at hu
  exact dropWhile_head_false (p := goSpace) (by simpa using hu)

theorem trimSpace_length (s : Str) : (trimSpace s).length ≤ s.length := by
  obtain ⟨u, hu, _⟩ := trimRight_ex (trimLeft s)
  have h1 := congrArg List.length hu
  rw [List.length_append] at h1
  have h2 := length_takeWhile_add_dropWhile goSpace s
  have h3 : (trimLeft s).length = (s.dropWhile goSpace).length := rfl
  show (trimRight (trimLeft s)).length ≤ s.length
  omega

/-! ## Lemmas about fence extraction -/

theorem splitTicks_eq : ∀ {s a b : Str}, splitTicks s = some (a, b) → s = a ++ fenceTicks ++ b
  | [], a, b, h => by simp [splitTicks] at h
  | c :: r, a, b, h => by
    rw [splitTicks] at h
    cases he : eatLit fenceTicks (c :: r) with
    | some rest =>
      rw [he] at h
      cases h
      simpa using eatLit_eq_some he
    | none =>
      rw [he] at h
      cases hs : splitTicks r with
      | none => rw [hs] at h; simp at h
      | some p =>
        obtain ⟨a2, b2⟩ := p
        rw [hs] at h
        cases h
        have := splitTicks_eq hs
        simp [this]

theorem fenceTagAt_len {tag t b : Str} (h : fenceTagAt tag t = some b) :
    b.length + 4 ≤ t.length := by
  unfold fenceTagAt at h
  split at h
  next rest he =>
    cases hs : splitTicks rest with
    | none => rw [hs] at h; simp at h
    | some p =>
      obtain ⟨a2, b2⟩ := p
      rw [hs] at h
      simp at h
      subst h
      have h1 := congrArg List.length (eatLit_eq_some he)
      have h2 := congrArg List.length (splitTicks_eq hs)
      simp [fenceTicks] at h1 h2
      omega
  next => simp at h

theorem fenceAt_len {t b : Str} (h : fenceAt t = some b) : b.length + 4 ≤ t.length := by
  unfold fenceAt at h
  cases h1 : fenceTagAt ("js".toList) t with
  | some b1 => rw [h1] at h; cases h; exact fenceTagAt_len h1
  | none =>
    rw [h1] at h
    cases h2 : fenceTagAt ("javascript".toList) t with
    | some b2 => rw [h2] at h; cases h; exact fenceTagAt_len h2
    | none => rw [h2] at h; exact fenceTagAt_len h

theorem fenceFind_len : ∀ {s b : Str}, fenceFind s = some b → b.length + 7 ≤ s.length
  | [], b, h => by simp [fenceFind] at h
  | c :: r, b, h => by
    rw [fenceFind] at h
    split at h
    next rest he =>
      split at h
      next b1 hf =>
        cases h
        have h1 := congrArg List.length (eatLit_eq_some he)
        have h2 := fenceAt_len hf
        simp [fenceTicks] at h1
        have h5 : (c :: r).length = r.length + 1 := by simp
        omega
      next =>
        have h3 := fenceFind_len h
        have h4 : r.length ≤ (c :: r).length := by simp
        omega
    next =>
      have h3 := fenceFind_len h
      have h4 : r.length ≤ (c :: r).length := by simp
      omega

/-! ## The wrapper prefix invariant of `sanitizeSketchCode` -/

theorem dotPass_cons_shape (c : Char) (r : Str) :
    (∃ t, dotPass (c :: r) = c :: t) ∨ (∃ t, dotPass (c :: r) = '.' :: t) :=
  dotPassGo_cons_shape ((c :: r).length + 1) c r

theorem length_wrapP5 (c : Str) : (wrapP5 c).length = c.length + 25 := by
  simp [wrapP5, wrapHead, wrapTail]

theorem trimLeft_dotPass2 (x : Str) :
    trimLeft (dotPass (dotPass (trimSpace x))) = dotPass (dotPass (trimSpace x)) := by
  cases h : trimSpace x with
  | nil => rfl
  | cons c r =>
    have hc := trimSpace_head_false h
    have hdot : goSpace '.' = false := by decide
    rcases dotPass_cons_shape c r with ⟨t, ht⟩ | ⟨t, ht⟩ <;> rw [ht]
    · rcases dotPass_cons_shape c t with ⟨u, hu⟩ | ⟨u, hu⟩ <;> rw [hu]
      · show List.dropWhile goSpace (c :: u) = c :: u
        rw [List.dropWhile_cons, if_neg (by simp [hc])]
      · show List.dropWhile goSpace ('.' :: u) = '.' :: u
        rw [List.dropWhile_cons, if_neg (by simp [hdot])]
    · rcases dotPass_cons_shape '.' t with ⟨u, hu⟩ | ⟨u, hu⟩ <;> rw [hu] <;>
        · show List.dropWhile goSpace ('.' :: u) = '.' :: u
          rw [List.dropWhile_cons, if_neg (by simp [hdot])]

theorem wrapP5_as_newP5 (c : Str) :
    wrapP5 c = newP5 ++ ("(function(p) \x7b\n".toList ++ c ++ wrapTail) := by
  simp [wrapP5, wrapHead, newP5, wrapTail]

theorem sanitize_startsWith (raw : Str) :
    hasPrefixL newP5 (sanitizeSketchCode raw) = true := by
  unfold sanitizeSketchCode
  set x := (match fenceFind raw with | some b => b | none => raw) with hx
  by_cases h : hasPrefixL newP5 (trimSpace (dotPass (dotPass (trimSpace x)))) = true
  · rw [if_pos h]
    obtain ⟨t, hts⟩ := hasPrefixL_ex h
    have hfix := trimLeft_dotPass2 x
    obtain ⟨u, hu, _⟩ := trimRight_ex (trimLeft (dotPass (dotPass (trimSpace x))))
    rw [hfix] at hu
    have hts2 : trimRight (dotPass (dotPass (trimSpace x))) = newP5 ++ t := by
      rw [← hfix]
      exact hts
    rw [hu, hts2, List.append_assoc]
    exact hasPrefixL_append _ _
  · rw [if_neg h, wrapP5_as_newP5]
    exact hasPrefixL_append _ _

theorem trimRight_length (t : Str) : (trimRight t).length ≤ t.length := by
  obtain ⟨u, hu, _⟩ := trimRight_ex t
  have h := congrArg List.length hu
  rw [List.length_append] at h
  omega

theorem eatLit_cons_ne {a c : Char} {l r : Str} (h : ¬a = c) :
    eatLit (a :: l) (c :: r) = none := by
  simp [eatLit, h]

theorem eatLit_ticks_space {c : Char} (r : Str) (hsp : goSpace c = true) :
    eatLit fenceTicks (c :: r) = none := by
  have h1 : fenceTicks = Char.ofNat 96 :: Char.ofNat 96 :: Char.ofNat 96 :: [] := by decide
  rw [h1]
  apply eatLit_cons_ne
  intro he
  rw [← he] at hsp
  exact absurd hsp (by decide)

theorem fenceFind_space : ∀ {s : Str}, (∀ c ∈ s, goSpace c = true) → fenceFind s = none
  | [], _ => rfl
  | c :: r, h => by
    rw [fenceFind, eatLit_ticks_space r (h c (List.mem_cons_self c r))]
    exact fenceFind_space fun x hx => h x (List.mem_cons_of_mem c hx)

/-- C10: for every input string, including the empty string, the output of
`sanitizeSketchCode` begins with the characters `new p5`: either the processed
code already starts with that prefix and is returned as-is, or the whole body
is wrapped in the instance-mode closure. -/
theorem sanitizeSketchCode_always_new_p5 (raw : Str) :
    hasPrefixL newP5 (sanitizeSketchCode raw) = true :=
  sanitize_startsWith raw

/-- C1 counterexample: on the empty string, `sanitizeSketchCode` does not
return the empty string (it returns the instance-mode wrapper around an empty
body), refuting the claim that empty input yields empty output. -/
theorem sanitizeSketchCode_empty_ne_empty : sanitizeSketchCode [] ≠ [] := by decide

/-- C1 amended: for every input that is empty or whitespace-only,
`sanitizeSketchCode` returns the instance-mode wrapper around an empty body,
`new p5(function(p) {\n\n});` — not the empty string. -/
theorem sanitizeSketchCode_whitespace_wrapped (s : Str) (h : s.all goSpace = true) :
    sanitizeSketchCode s = wrapP5 [] := by
  have hmem : ∀ c ∈ s, goSpace c = true := by simpa [List.all_eq_true] using h
  have hfence : fenceFind s = none := fenceFind_space hmem
  have htrim : trimSpace s = [] := by
    have h1 : trimLeft s = [] := dropWhile_all hmem
    show trimRight (trimLeft s) = []
    rw [h1]
    rfl
  unfold sanitizeSketchCode
  simp only [hfence, htrim]
  decide

/-- C1 witness: a concrete whitespace-only input is wrapped, not emptied. -/
theorem sanitizeSketchCode_whitespace_wrapped_witness :
    sanitizeSketchCode (" \t\n".toList) = wrapP5 [] :=
  sanitizeSketchCode_whitespace_wrapped (" \t\n".toList) (by decide)

/-- C2: applying `sanitizeSketchCode` to its own output never wraps again:
the second output is never the first output enclosed in another instance-mode
closure, so no doubly-nested wrapper is ever produced and the wrapped-call
prefix stays unique at the top level. -/
theorem sanitizeSketchCode_no_double_wrap (raw : Str) :
    sanitizeSketchCode (sanitizeSketchCode raw) ≠ wrapP5 (sanitizeSketchCode raw) := by
  intro heq
  set o1 := sanitizeSketchCode raw with ho1
  have hlhs : (sanitizeSketchCode o1).length < o1.length + 25 := by
    unfold sanitizeSketchCode
    cases hf : fenceFind o1 with
    | some b =>
      simp only [hf]
      have hb := fenceFind_len hf
      have hb2 : (dotPass (dotPass (trimSpace b))).length ≤ b.length :=
        le_trans (dotPass_length _) (le_trans (dotPass_length _) (trimSpace_length _))
      by_cases hp : hasPrefixL newP5 (trimSpace (dotPass (dotPass (trimSpace b)))) = true
      · rw [if_pos hp]
        omega
      · rw [if_neg hp, length_wrapP5]
        omega
    | none =>
      simp only [hf]
      have hpre := sanitize_startsWith raw
      rw [← ho1] at hpre
      obtain ⟨t, hot⟩ := hasPrefixL_ex hpre
      have h1 : trimSpace o1 = newP5 ++ trimRight t := by
        rw [hot]
        exact trimSpace_newP5 t
      have h2 : dotPass (dotPass (trimSpace o1)) = newP5 ++ dotPass (dotPass (trimRight t)) := by
        rw [h1, dotPass_newP5, dotPass_newP5]
      have h3 : hasPrefixL newP5 (trimSpace (dotPass (dotPass (trimSpace o1)))) = true := by
        rw [h2, trimSpace_newP5]
        exact hasPrefixL_append _ _
      rw [if_pos h3, h2]
      have h4 : (dotPass (dotPass (trimRight t))).length ≤ t.length :=
        le_trans (dotPass_length _) (le_trans (dotPass_length _) (trimRight_length _))
      have h5 : o1.length = t.length + 6 := by
        rw [hot]
        simp [newP5]
      rw [List.length_append]
      simp only [newP5]
      simp
      omega
  have hl := congrArg List.length heq
  rw [length_wrapP5] at hl
  omega

/-- C2 witness: the no-rewrap property applied at a concrete input. -/
theorem sanitizeSketchCode_no_double_wrap_witness :
    sanitizeSketchCode (sanitizeSketchCode ("circle(1, 2);".toList))
      ≠ wrapP5 (sanitizeSketchCode ("circle(1, 2);".toList)) :=
  sanitizeSketchCode_no_double_wrap ("circle(1, 2);".toList)

/-- C3: the first `SanitizeAnimationCode` revision fails to strip a fence
whose body spans multiple lines, because its regex lacks `(?s)`: on the
repository's own first test case the function returns the input unchanged —
fence markers included — while the fence pattern of `sanitizeSketchCode`
(which has `(?s)` and `[\s\S]*?`) extracts exactly the body the test
expects. -/
theorem sanitizeAnimationCode_multiline_fence_kept :
    sanitizeAnimationCode fencedSetupInput = fencedSetupInput ∧
    containsSubstr fenceTicks (sanitizeAnimationCode fencedSetupInput) = true ∧
    (fenceFind fencedSetupInput).map trimSpace = some fencedSetupExpected := by
  decide

/-- C4: declaration promotion is stable: on `x = 5;\nx = 6;` the first
occurrence is promoted to `let x = 5;`, the second stays a bare assignment,
and the output contains `let` exactly once. -/
theorem preprocessP5Code_promotion_stable :
    preprocessP5Code ("x = 5;\nx = 6;".toList) = ("let x = 5;\nx = 6;").toList ∧
    countOcc ("let".toList) (preprocessP5Code ("x = 5;\nx = 6;".toList)) = 1 := by
  decide

/-- C6: whenever the function scan finds a draw definition and no setup
definition, `AnalyzeP5Code` reports exactly the one error
`Missing setup() function` and `isValid` is false; and for every input,
`isValid` holds exactly when the error list is empty. -/
theorem analyzeP5Code_missing_setup (code : Str) :
    ((analyzeP5Code code).hasDraw = true → (analyzeP5Code code).hasSetup = false →
      (analyzeP5Code code).errors = [missingSetupMsg] ∧
      (analyzeP5Code code).isValid = false) ∧
    ((analyzeP5Code code).isValid = true ↔ (analyzeP5Code code).errors = []) := by
  unfold analyzeP5Code
  dsimp only
  constructor
  · intro hd hs
    rw [hs, hd]
    simp
  · exact List.isEmpty_iff

/-- C6 witness: a sketch with only a draw function gets exactly the
missing-setup error and is invalid. -/
theorem analyzeP5Code_missing_setup_witness :
    (analyzeP5Code ("function draw() \x7b\n\x7d".toList)).errors = [missingSetupMsg] ∧
    (analyzeP5Code ("function draw() \x7b\n\x7d".toList)).isValid = false :=
  (analyzeP5Code_missing_setup ("function draw() \x7b\n\x7d".toList)).1 (by decide) (by decide)

/-- C9: the pipeline is deterministic and pure: an invocation's output depends
only on the input text — the ambient declaration table (which
`PreprocessP5Code` replaces with a fresh `make(map[string]bool)`) never
influences it — two invocations on the same input agree, running a second
invocation after a first changes nothing, and the stateful model coincides
with the plain function. -/
theorem pipeline_deterministic_pure (t1 t2 : VarTable) (code raw : Str) :
    (preprocessP5CodeSt t1 code).1 = (preprocessP5CodeSt t2 code).1 ∧
    (preprocessP5CodeSt (preprocessP5CodeSt t1 code).2 code).1
      = (preprocessP5CodeSt t1 code).1 ∧
    preprocessP5Code code = (preprocessP5CodeSt t1 code).1 ∧
    sanitizeSketchCode raw = sanitizeSketchCode raw :=
  ⟨rfl, rfl, rfl, rfl⟩

theorem tInsert_sub (v : Str) (t : VarTable) : t ⊆ tInsert v t := by
  unfold tInsert
  by_cases h : v ∈ t
  · rw [if_pos h]
    exact List.Subset.refl t
  · rw [if_neg h]
    exact List.subset_cons_self v t

theorem foldl_tInsert_sub (vs : List Str) :
    ∀ t : VarTable, t ⊆ vs.foldl (fun acc v => tInsert v acc) t := by
  induction vs with
  | nil => intro t; exact List.Subset.refl t
  | cons v vs ih =>
    intro t
    exact List.Subset.trans (tInsert_sub v t) (ih (tInsert v t))

theorem optInsert_sub (o : Option Str) (t : VarTable) :
    t ⊆ (match o with | some v => tInsert v t | none => t) := by
  cases o with
  | none => exact List.Subset.refl t
  | some v => exact tInsert_sub v t

theorem scanLineTable_sub (t : VarTable) (l : Str) : t ⊆ scanLineTable t l := by
  unfold scanLineTable
  dsimp only
  exact List.Subset.trans (foldl_tInsert_sub (letAllGo (l.length + 1) l) t)
    (List.Subset.trans (optInsert_sub (funcFirst l) _) (optInsert_sub (arrayFirst l) _))

theorem rewriteLine_sub (t : VarTable) (l : Str) : t ⊆ (rewriteLine t l).2 := by
  unfold rewriteLine
  cases assignMatch l with
  | none => exact List.Subset.refl t
  | some v =>
    dsimp only
    split
    · exact tInsert_sub v t
    · exact List.Subset.refl t

theorem rewriteFold_sub (lines : List Str) :
    ∀ acc : List Str × VarTable,
      acc.2 ⊆ (lines.foldl
        (fun (acc : List Str × VarTable) line =>
          let r := rewriteLine acc.2 line
          (acc.1 ++ [r.1], r.2)) acc).2 := by
  induction lines with
  | nil => intro acc; exact List.Subset.refl _
  | cons l ls ih =>
    intro acc
    rw [List.foldl_cons]
    exact List.Subset.trans (rewriteLine_sub acc.2 l)
      (ih (acc.1 ++ [(rewriteLine acc.2 l).1], (rewriteLine acc.2 l).2))

/-- C7: the declaration table is strictly additive: the scanning step and the
rewriting step on any line only ever extend the table, and across a whole
`PreprocessP5Code` invocation the table built by the first pass is contained
in the table as it stands at the end of the rewrite pass. -/
theorem declaredVars_additive (t : VarTable) (l : Str) (code : Str) :
    t ⊆ scanLineTable t l ∧
    t ⊆ (rewriteLine t l).2 ∧
    (splitOnNl code).foldl scanLineTable [] ⊆ (preprocessP5CodeSt [] code).2 :=
  ⟨scanLineTable_sub t l, rewriteLine_sub t l,
    rewriteFold_sub (splitOnNl code) (([] : List Str), (splitOnNl code).foldl scanLineTable [])⟩

/-! ## Lemmas for the bracket-repair rule -/

theorem takeWhile_append_head {p : Char → Bool} {a t : Str} (ha : ∀ c ∈ a, p c = true)
    (ht : ∀ c, t.head? = some c → p c = false) :
    (a ++ t).takeWhile p = a ∧ (a ++ t).dropWhile p = t := by
  cases t with
  | nil =>
    rw [List.append_nil]
    exact ⟨takeWhile_all ha, dropWhile_all ha⟩
  | cons b u =>
    exact ⟨takeWhile_append_stop (ht b rfl) ha, dropWhile_append_stop (ht b rfl) ha⟩

theorem reSpace_not_word {c : Char} (h : reSpace c = true) : wordChar c = false := by
  simp [reSpace] at h
  rcases h with rfl | rfl | rfl | rfl | rfl <;> decide

theorem reSpace_ne_semi {c : Char} (h : reSpace c = true) : ¬c = ';' := by
  intro he
  subst he
  exact absurd h (by decide)

theorem firstSemiSplit_left :
    ∀ {x : Str} (y : Str), (∀ c ∈ x, ¬c = ';') → firstSemiSplit (x ++ ';' :: y) = some (x, y)
  | [], y, _ => by simp [firstSemiSplit]
  | c :: x, y, h => by
    rw [List.cons_append, firstSemiSplit,
      if_neg (h c (List.mem_cons_self c x)),
      firstSemiSplit_left y fun e he => h e (List.mem_cons_of_mem c he)]
    rfl

theorem bracketGo_nil (f : Nat) : bracketGo f [] = [] := by
  cases f <;> rfl

theorem bracketGo_id_of_no_hit : ∀ {l : Str} (f : Nat), bracketHit l = false → bracketGo f l = l
  | [], f, _ => bracketGo_nil f
  | c :: r, f, h => by
    rw [bracketHit, Bool.or_eq_false_iff] at h
    obtain ⟨h1, h2⟩ := h
    have hnone : bracketMatchAt (c :: r) = none := by
      cases hm : bracketMatchAt (c :: r) with
      | none => rfl
      | some p => rw [hm] at h1; simp at h1
    cases f with
    | zero => rfl
    | succ f =>
      rw [bracketGo]
      simp only [hnone]
      rw [bracketGo_id_of_no_hit f h2]

theorem head_cons_not {p : Char → Bool} {b : Char} {u : Str} (hb : p b = false) :
    ∀ c, (b :: u).head? = some c → p c = false := by
  intro c hc
  simp at hc
  rw [← hc]
  exact hb

theorem bracketMatchAt_pattern
    (a i f sp1 op sp2 v : Str)
    (ha : a ≠ []) (hai : ∀ c ∈ a, wordChar c = true)
    (hii : ∀ c ∈ i, wordChar c = true) (hi : i ≠ [])
    (hfi : ∀ c ∈ f, wordChar c = true) (hfne : f ≠ [])
    (hsp1 : ∀ c ∈ sp1, reSpace c = true)
    (hsp2 : ∀ c ∈ sp2, reSpace c = true)
    (hop : op ∈ ([[], ['+'], ['-'], ['*'], ['/']] : List Str))
    (hv : v ≠ []) (hvs : ∀ c ∈ v, ¬c = ';')
    (hvh : ∀ c, v.head? = some c → reSpace c = false) :
    bracketMatchAt
        (a ++ '[' :: (i ++ '.' :: (f ++ (sp1 ++ (op ++ '=' :: (sp2 ++ (v ++ [';'])))))))
      = some
          (a ++ '[' :: i ++ "].".toList ++ f ++ ' ' :: op ++ "= ".toList ++ v ++ [';'],
            []) := by
  have hopcases : op = [] ∨ op = ['+'] ∨ op = ['-'] ∨ op = ['*'] ∨ op = ['/'] := by
    simpa using hop
  have hopw : ∀ c, (op ++ '=' :: (sp2 ++ (v ++ [';']))).head? = some c →
      wordChar c = false ∧ reSpace c = false := by
    rcases hopcases with rfl | rfl | rfl | rfl | rfl <;>
      · intro c hc
        simp at hc
        subst hc
        exact ⟨by decide, by decide⟩
  have hopeq : opEq (op ++ '=' :: (sp2 ++ (v ++ [';'])))
      = some (op, sp2 ++ (v ++ [';'])) := by
    rcases hopcases with rfl | rfl | rfl | rfl | rfl <;> simp [opEq]
  obtain ⟨d, v', rfl⟩ : ∃ d v', v = d :: v' := by
    cases v with
    | nil => exact absurd rfl hv
    | cons d v' => exact ⟨d, v', rfl⟩
  have hdns : reSpace d = false := hvh d rfl
  -- step 1: `(\w+)` takes exactly `a`, then `[`
  obtain ⟨ht1, hd1⟩ := takeWhile_append_head (a := a) hai
    (head_cons_not (by decide : wordChar '[' = false))
  -- step 2: `(\w+)` takes exactly `i`, then `.`
  obtain ⟨ht2, hd2⟩ := takeWhile_append_head (a := i) hii
    (head_cons_not (by decide : wordChar '.' = false))
  -- step 3: `(\w+)` takes exactly `f`, then whitespace and the operator
  obtain ⟨ht3, hd3⟩ := takeWhile_append_head (a := f) hfi
    (t := sp1 ++ (op ++ '=' :: (sp2 ++ (d :: v' ++ [';']))))
    (by
      cases sp1 with
      | nil =>
        intro c hc
        exact (hopw c (by simpa using hc)).1
      | cons e es =>
        exact head_cons_not (reSpace_not_word (hsp1 e (List.mem_cons_self e es))))
  -- step 4: `\s*` takes exactly `sp1`
  obtain ⟨ht4, hd4⟩ := takeWhile_append_head (p := reSpace) (a := sp1) hsp1
    (t := op ++ '=' :: (sp2 ++ (d :: v' ++ [';'])))
    (fun c hc => (hopw c hc).2)
  -- step 5: `\s*` before the value takes exactly `sp2`
  obtain ⟨ht5, hd5⟩ := takeWhile_append_head (p := reSpace) (a := sp2) hsp2
    (t := d :: v' ++ [';'])
    (head_cons_not hdns)
  -- step 6: the first `;` closes the value
  have hsemi : firstSemiSplit (sp2 ++ (d :: v' ++ [';'])) = some (sp2 ++ d :: v', []) := by
    rw [show sp2 ++ (d :: v' ++ [';']) = (sp2 ++ d :: v') ++ ';' :: [] by simp]
    refine firstSemiSplit_left [] ?_
    intro c hc
    rcases List.mem_append.mp hc with h1 | h1
    · exact reSpace_ne_semi (hsp2 c h1)
    · exact hvs c h1
  unfold bracketMatchAt
  rw [ht1, hd1]
  simp only [if_neg ha]
  rw [ht2, hd2]
  simp only [if_neg hi]
  rw [ht3, hd3]
  simp only [if_neg hfne]
  rw [hd4, hopeq]
  simp only [hsemi]
  rw [ht5]
  have hlen1 : (sp2 ++ d :: v').length = sp2.length + (v'.length + 1) := by simp
  have hlt : sp2.length < (sp2 ++ d :: v').length := by
    rw [hlen1]
    omega
  rw [if_pos hlt]
  have hdrop : (sp2 ++ d :: v').drop sp2.length = d :: v' := List.drop_left sp2 (d :: v')
  rw [hdrop]

/-- C8: the bracket-repair rule of `PreprocessP5Code`: every line of the exact
shape `array[index.field op= value;` (plain or `+ - * /` compound assignment
after a dotted index expression with no closing bracket, with word-character
names, whitespace runs around the operator, and a `;`-free value that does not
start with whitespace) is rewritten to the well-formed
`array[index].field op= value;`; and a line the pattern does not match
anywhere is left unchanged by this rule. -/
theorem bracketFix_repair
    (a i f sp1 op sp2 v : Str)
    (ha : a ≠ []) (hai : ∀ c ∈ a, wordChar c = true)
    (hii : ∀ c ∈ i, wordChar c = true) (hi : i ≠ [])
    (hfi : ∀ c ∈ f, wordChar c = true) (hfne : f ≠ [])
    (hsp1 : ∀ c ∈ sp1, reSpace c = true)
    (hsp2 : ∀ c ∈ sp2, reSpace c = true)
    (hop : op ∈ ([[], ['+'], ['-'], ['*'], ['/']] : List Str))
    (hv : v ≠ []) (hvs : ∀ c ∈ v, ¬c = ';')
    (hvh : ∀ c, v.head? = some c → reSpace c = false) :
    bracketFix (a ++ '[' :: (i ++ '.' :: (f ++ (sp1 ++ (op ++ '=' :: (sp2 ++ (v ++ [';'])))))))
        = a ++ '[' :: i ++ "].".toList ++ f ++ ' ' :: op ++ "= ".toList ++ v ++ [';'] ∧
      ∀ l : Str, bracketHit l = false → bracketFix l = l := by
  constructor
  · have hm := bracketMatchAt_pattern a i f sp1 op sp2 v ha hai hii hi hfi hfne hsp1 hsp2
      hop hv hvs hvh
    obtain ⟨c, a', rfl⟩ : ∃ c a', a = c :: a' := by
      cases a with
      | nil => exact absurd rfl ha
      | cons c a' => exact ⟨c, a', rfl⟩
    rw [List.cons_append] at hm ⊢
    unfold bracketFix
    rw [bracketGo]
    simp only [hm, bracketGo_nil, List.append_nil]
  · intro l h
    exact bracketGo_id_of_no_hit _ h

/-- C8 witness: the repair applied to the concrete line `stars[i.y += 2;`. -/
theorem bracketFix_repair_witness :
    bracketFix ("stars".toList ++ '[' :: ("i".toList ++ '.' ::
        ("y".toList ++ ([' '] ++ (['+'] ++ '=' :: ([' '] ++ ("2".toList ++ [';'])))))))
      = "stars".toList ++ '[' :: "i".toList ++ "].".toList ++ "y".toList
          ++ ' ' :: ['+'] ++ "= ".toList ++ "2".toList ++ [';'] :=
  (bracketFix_repair "stars".toList "i".toList "y".toList [' '] ['+'] [' '] "2".toList
    (by decide) (by decide) (by decide) (by decide) (by decide) (by decide)
    (by decide) (by decide) (by decide) (by decide) (by decide) (by decide)).1

/-! ## Lemmas for the canvas-binding rule -/

theorem splitOnNl_single : ∀ {s : Str}, (∀ c ∈ s, ¬c = '\n') → splitOnNl s = [s]
  | [], _ => rfl
  | c :: r, h => by
    rw [splitOnNl, splitOnNl_single fun e he => h e (List.mem_cons_of_mem c he)]
    simp [h c (List.mem_cons_self c r)]

theorem joinNl_single (l : Str) : joinNl [l] = l := by
  simp [joinNl, List.intercalate]

theorem lastParentSuffix_none : ∀ {l : Str}, containsSubstr (".parent(".toList) l = false →
    lastParentSuffix l = none
  | [], _ => rfl
  | c :: r, h => by
    rw [containsSubstr, Bool.or_eq_false_iff] at h
    obtain ⟨h1, h2⟩ := h
    rw [lastParentSuffix, lastParentSuffix_none h2]
    cases hp : parentAfter (c :: r) with
    | none => rfl
    | some q =>
      unfold parentAfter at hp
      cases he : eatLit (".parent(".toList) (c :: r) with
      | none => rw [he] at hp; simp at hp
      | some s1 =>
        rw [hasPrefixL, he] at h1
        simp at h1

theorem parentFix_none {l : Str} (h : containsSubstr (".parent(".toList) l = false) :
    parentFix l = none := by
  unfold parentFix
  rw [lastParentSuffix_none h]

theorem bracketMatchAt_mem_lb {s : Str} {p : Str × Str} (h : bracketMatchAt s = some p) :
    '[' ∈ s := by
  unfold bracketMatchAt at h
  by_cases hg : s.takeWhile wordChar = []
  · rw [if_pos hg] at h
    simp at h
  · rw [if_neg hg] at h
    cases hd : s.dropWhile wordChar with
    | nil => rw [hd] at h; simp at h
    | cons b u =>
      rw [hd] at h
      by_cases hb : b = '['
      · subst hb
        have : '[' ∈ s.dropWhile wordChar := by rw [hd]; exact List.mem_cons_self _ _
        exact (List.dropWhile_sublist wordChar).mem this
      · exfalso
        revert h
        split
        next heq => exact absurd (by cases heq; rfl) hb
        next => simp


theorem bracketHit_of_no_lb : ∀ {l : Str}, (∀ c ∈ l, ¬c = '[') → bracketHit l = false
  | [], _ => rfl
  | c :: r, h => by
    rw [bracketHit, Bool.or_eq_false_iff]
    refine ⟨?_, bracketHit_of_no_lb fun e he => h e (List.mem_cons_of_mem c he)⟩
    cases hm : bracketMatchAt (c :: r) with
    | none => rfl
    | some p => exact absurd rfl (h '[' (bracketMatchAt_mem_lb hm))

theorem bracketFix_id {l : Str} (h : ∀ c ∈ l, ¬c = '[') : bracketFix l = l :=
  bracketGo_id_of_no_hit _ (bracketHit_of_no_lb h)

theorem canvasArgsTail_at (decl args : Str)
    (hd : decl = "let".toList ∨ decl = "var".toList ∨ decl = "const".toList)
    (ha : ∀ c ∈ args, ¬c = ')') :
    canvasArgsTail (decl ++ (" canvas = createCanvas(".toList ++ (args ++ ");".toList)))
      = some args := by
  have hkw : declKwAt (decl ++ (" canvas = createCanvas(".toList ++ (args ++ ");".toList)))
      = some (" canvas = createCanvas(".toList ++ (args ++ ");".toList)) := by
    rcases hd with rfl | rfl | rfl <;> rfl
  have hargw : ∀ c ∈ args, neChar ')' c = true := by
    intro c hc
    simp [neChar, ha c hc]
  obtain ⟨htk, hdp⟩ := takeWhile_append_head (p := neChar ')') (a := args)
    (t := ')' :: ';' :: []) hargw (head_cons_not (by decide))
  unfold canvasArgsTail
  rw [hkw]
  show (match eatLit (')' :: ';' :: []) ((args ++ ')' :: ';' :: []).dropWhile (neChar ')')) with
    | some _ => some ((args ++ ')' :: ';' :: []).takeWhile (neChar ')'))
    | none => none) = some args
  rw [hdp, htk]
  rfl

theorem canvasMatchAt_at (ws decl args : Str)
    (hw : ∀ c ∈ ws, reSpace c = true)
    (hd : decl = "let".toList ∨ decl = "var".toList ∨ decl = "const".toList)
    (ha : ∀ c ∈ args, ¬c = ')') :
    canvasMatchAt
        (ws ++ (decl ++ (" canvas = createCanvas(".toList ++ (args ++ ");".toList))))
      = some (ws, args) := by
  have hdh : ∀ c,
      (decl ++ (" canvas = createCanvas(".toList ++ (args ++ ");".toList))).head? = some c →
      reSpace c = false := by
    rcases hd with rfl | rfl | rfl <;>
      · intro c hc
        have hc' : some 'l' = some c ∨ some 'v' = some c ∨ some 'c' = some c := by
          first
          | exact Or.inl hc
          | exact Or.inr (Or.inl hc)
          | exact Or.inr (Or.inr hc)
        rcases hc' with hc' | hc' | hc' <;> (cases hc'; decide)
  obtain ⟨hwt, hwd⟩ := takeWhile_append_head (p := reSpace) (a := ws) hw hdh
  unfold canvasMatchAt
  rw [hwd, hwt, canvasArgsTail_at decl args hd ha]
  rfl

theorem canvasFind_at (ws decl args : Str)
    (hw : ∀ c ∈ ws, reSpace c = true)
    (hd : decl = "let".toList ∨ decl = "var".toList ∨ decl = "const".toList)
    (ha : ∀ c ∈ args, ¬c = ')') :
    canvasFind (ws ++ (decl ++ (" canvas = createCanvas(".toList ++ (args ++ ");".toList))))
      = some (ws, args) := by
  have hm := canvasMatchAt_at ws decl args hw hd ha
  obtain ⟨c, r, hcr⟩ : ∃ c r,
      ws ++ (decl ++ (" canvas = createCanvas(".toList ++ (args ++ ");".toList))) = c :: r := by
    cases ws with
    | cons c w' => exact ⟨c, w' ++ (decl ++ (" canvas = createCanvas(".toList ++ (args ++ ");".toList))), by simp⟩
    | nil =>
      rcases hd with rfl | rfl | rfl
      · exact ⟨'l', 'e' :: 't' :: (" canvas = createCanvas(".toList ++ (args ++ ");".toList)), rfl⟩
      · exact ⟨'v', 'a' :: 'r' :: (" canvas = createCanvas(".toList ++ (args ++ ");".toList)), rfl⟩
      · exact ⟨'c', 'o' :: 'n' :: 's' :: 't' :: (" canvas = createCanvas(".toList ++ (args ++ ");".toList)), rfl⟩
  rw [hcr] at hm ⊢
  rw [canvasFind]
  simp only [hm]

theorem assignMatch_dropWhile_eq (l1 l2 : Str)
    (h : l1.dropWhile reSpace = l2.dropWhile reSpace) : assignMatch l1 = assignMatch l2 := by
  unfold assignMatch
  rw [h]

theorem assignMatch_canvas_none (ws decl args : Str)
    (hw : ∀ c ∈ ws, reSpace c = true)
    (hd : decl = "let".toList ∨ decl = "var".toList ∨ decl = "const".toList) :
    assignMatch
        (ws ++ (decl ++ (" canvas = createCanvas(".toList ++ (args ++ ");".toList))))
      = none := by
  have hdh : ∀ c,
      (decl ++ (" canvas = createCanvas(".toList ++ (args ++ ");".toList))).head? = some c →
      reSpace c = false := by
    rcases hd with rfl | rfl | rfl <;>
      · intro c hc
        have hc' : some 'l' = some c ∨ some 'v' = some c ∨ some 'c' = some c := by
          first
          | exact Or.inl hc
          | exact Or.inr (Or.inl hc)
          | exact Or.inr (Or.inr hc)
        rcases hc' with hc' | hc' | hc' <;> (cases hc'; decide)
  obtain ⟨hwt, hwd⟩ := takeWhile_append_head (p := reSpace) (a := ws) hw hdh
  have hstep := assignMatch_dropWhile_eq
    (ws ++ (decl ++ (" canvas = createCanvas(".toList ++ (args ++ ");".toList))))
    (decl ++ (" canvas = createCanvas(".toList ++ (args ++ ");".toList)))
    (by
      rw [hwd]
      rcases hd with rfl | rfl | rfl <;> rfl)
  rw [hstep]
  rcases hd with rfl | rfl | rfl <;> rfl

theorem rewriteLine_canvas (t : VarTable) (ws decl args : Str)
    (hw : ∀ c ∈ ws, reSpace c = true)
    (hd : decl = "let".toList ∨ decl = "var".toList ∨ decl = "const".toList)
    (ha : ∀ c ∈ args, ¬c = ')' ∧ ¬c = '[')
    (hp : containsSubstr (".parent(".toList)
        (ws ++ (decl ++ (" canvas = createCanvas(".toList ++ (args ++ ");".toList)))) = false) :
    rewriteLine t (ws ++ (decl ++ (" canvas = createCanvas(".toList ++ (args ++ ");".toList))))
      = (ws ++ "createCanvas(".toList ++ args ++ ");".toList, t) := by
  have hnob : ∀ c ∈ ws ++ "createCanvas(".toList ++ args ++ ");".toList, ¬c = '[' := by
    intro c hc
    simp only [List.mem_append] at hc
    rcases hc with ((h | h) | h) | h
    · intro he
      subst he
      exact absurd (hw _ h) (by decide)
    · exact (by decide : ∀ x ∈ ("createCanvas(".toList : Str), ¬x = '[') c h
    · exact (ha c h).2
    · exact (by decide : ∀ x ∈ (");".toList : Str), ¬x = '[') c h
  unfold rewriteLine
  rw [canvasFind_at ws decl args hw hd (fun c hc => (ha c hc).1),
    parentFix_none hp, assignMatch_canvas_none ws decl args hw hd]
  simp only []
  rw [bracketFix_id hnob]

/-- C5 amended: for every line `<ws><decl> canvas = createCanvas(<args>);`
whose indentation is spaces/tabs, whose declaration keyword is `let`, `var` or
`const`, whose argument text contains no `)`, no `[` and no newline, and which
contains no `.parent(` call, `PreprocessP5Code` rewrites the line to
`<ws>createCanvas(<args>);`: binding removed, indentation kept, and the
argument text byte-for-byte unchanged. -/
theorem preprocessP5Code_canvas_binding (ws decl args : Str)
    (hw : ∀ c ∈ ws, c = ' ' ∨ c = '\t')
    (hd : decl = "let".toList ∨ decl = "var".toList ∨ decl = "const".toList)
    (ha : ∀ c ∈ args, ¬c = ')' ∧ ¬c = '[' ∧ ¬c = '\n')
    (hp : containsSubstr (".parent(".toList)
        (ws ++ (decl ++ (" canvas = createCanvas(".toList ++ (args ++ ");".toList)))) = false) :
    preprocessP5Code (ws ++ (decl ++ (" canvas = createCanvas(".toList ++ (args ++ ");".toList))))
      = ws ++ "createCanvas(".toList ++ args ++ ");".toList := by
  have hw' : ∀ c ∈ ws, reSpace c = true := by
    intro c hc
    rcases hw c hc with rfl | rfl <;> decide
  have hnl : ∀ c ∈ ws ++ (decl ++ (" canvas = createCanvas(".toList ++ (args ++ ");".toList))),
      ¬c = '\n' := by
    intro c hc
    simp only [List.mem_append] at hc
    rcases hc with h | h | h | h | h
    · rcases hw c h with rfl | rfl <;> decide
    · rcases hd with rfl | rfl | rfl
      · exact (by decide : ∀ x ∈ ("let".toList : Str), ¬x = '\n') c h
      · exact (by decide : ∀ x ∈ ("var".toList : Str), ¬x = '\n') c h
      · exact (by decide : ∀ x ∈ ("const".toList : Str), ¬x = '\n') c h
    · exact (by decide : ∀ x ∈ (" canvas = createCanvas(".toList : Str), ¬x = '\n') c h
    · exact (ha c h).2.2
    · exact (by decide : ∀ x ∈ (");".toList : Str), ¬x = '\n') c h
  unfold preprocessP5Code
  rw [splitOnNl_single hnl]
  simp only [List.foldl_cons, List.foldl_nil]
  rw [rewriteLine_canvas _ ws decl args hw' hd (fun c hc => ⟨(ha c hc).1, (ha c hc).2.1⟩) hp]
  simp only [List.nil_append]
  exact joinNl_single _

/-- C5 counterexample: the line `let canvas = createCanvas(min(400, 300));` has
exactly the claimed form with argument text `min(400, 300)`, yet
`PreprocessP5Code` leaves it unchanged instead of rewriting it to
`createCanvas(min(400, 300));`: the `[^)]*` argument group of the canvas
pattern cannot cross the `)` inside the arguments, so the pattern does not
match and the binding is kept. -/
theorem preprocessP5Code_canvas_args_paren :
    preprocessP5Code ("let canvas = createCanvas(min(400, 300));".toList)
        = ("let canvas = createCanvas(min(400, 300));".toList) ∧
    preprocessP5Code ("let canvas = createCanvas(min(400, 300));".toList)
        ≠ ("createCanvas(min(400, 300));".toList) := by
  constructor
  · decide
  · decide

/-- C5 witness: the canvas-binding rewrite applied to the concrete line
<two spaces>`let canvas = createCanvas(400, 300);`. -/
theorem preprocessP5Code_canvas_binding_witness :
    preprocessP5Code ("  let canvas = createCanvas(400, 300);".toList)
      = ("  createCanvas(400, 300);".toList) :=
  preprocessP5Code_canvas_binding (' ' :: ' ' :: []) ("let".toList) ("400, 300".toList)
    (by decide) (Or.inl rfl) (by decide) (by decide)
